import Mathlib

/-!
Shallow embedding of the scone-hunter target-aggregation and notification
core (`scone_hunter/discovery/aggregator.py`, `scone_hunter/discovery/immunefi.py`,
`scone_hunter/discovery/defillama.py`, `scone_hunter/aggregator/notifier.py`,
`scone_hunter/aggregator/extractor.py`), together with theorems settling the
frozen claims about it.

Modelling conventions:
* Python `dict`s (insertion-ordered) are association lists `List (String × α)`;
  membership tests, in-place updates and appends mirror dict semantics.
* Timestamps (`datetime`) are rationals; the aggregator measures time in days,
  the notifier in seconds (it divides by 3600 exactly as the code does).
* `float` scores are rationals.  `math.log10` and `round(·, 2)` are the two
  numeric primitives the scoring function uses; they are carried as an explicit
  `ScoreModel` parameter (any real-log/rounding pair is an instance), so every
  definition stays executable and theorems quantify over the model, assuming
  only the elementary facts about `log10`/`round` a given claim needs.
* Python strings are Lean `String`s; `str.lower` is ASCII lowering (addresses
  and chain tags in this code are ASCII).
-/

/-- ASCII lowercase of one character, as `str.lower` acts on ASCII input. -/
def lowChar (c : Char) : Char :=
  if 'A' ≤ c ∧ c ≤ 'Z' then Char.ofNat (c.toNat + 32) else c

/-- ASCII lowercase of a string (`address.lower()` on ASCII addresses). -/
def lowerStr (s : String) : String := ⟨s.data.map lowChar⟩

/-- ASCII uppercase of one character. -/
def upChar (c : Char) : Char :=
  if 'a' ≤ c ∧ c ≤ 'z' then Char.ofNat (c.toNat - 32) else c

/-- Python `str.capitalize`: first character uppercased, the rest lowercased. -/
def capitalizeChars : List Char → List Char
  | [] => []
  | c :: cs => upChar c :: cs.map lowChar

/-- Python truthiness of an `Optional[str]`: `None` and `""` are falsy. -/
def optStrTruthy : Option String → Bool
  | none => false
  | some s => !s.data.isEmpty

/-- The numeric primitives of `_calculate_priority`: `math.log10` and
`round(·, 2)`.  Carried as a parameter so the embedding stays executable;
the real pair is one instance, and claims assume only the elementary
properties of it they need. -/
structure ScoreModel where
  log10 : ℚ → ℚ
  round2 : ℚ → ℚ

/-- The `chain_scores` lookup table of `_calculate_priority` (default 3). -/
def chainScore (chain : String) : ℚ :=
  if chain = "ethereum" then 10
  else if chain = "base" then 9
  else if chain = "arbitrum" then 8
  else if chain = "optimism" then 7
  else if chain = "polygon" then 6
  else if chain = "bsc" then 5
  else 3

/-- `TargetAggregator._calculate_priority`: bounty component (capped at 40),
TVL component (capped at 30), flat +20 bounty-program bonus, chain preference,
rounded to two decimals. -/
def calculate_priority (M : ScoreModel) (max_bounty : ℤ) (tvl : ℚ)
    (has_bounty : Bool) (chain : String) : ℚ :=
  M.round2
    ((if 0 < max_bounty then min 40 (10 * M.log10 ((max_bounty : ℚ) / 1000 + 1)) else 0)
      + (if 0 < tvl then min 30 (5 * M.log10 (tvl / 100000 + 1)) else 0)
      + (if has_bounty then 20 else 0)
      + chainScore chain)

/-- The `ScanTarget` dataclass. -/
structure ScanTarget where
  address : String
  chain : String
  name : String
  program : Option String
  max_bounty : ℤ
  tvl : ℚ
  priority_score : ℚ
  source : String
  category : String
  url : Option String := none
  last_scanned : Option ℚ := none
  deriving DecidableEq

/-- The identity key `f"{chain}:{address.lower()}"`. -/
def targetKey (chain address : String) : String := chain ++ ":" ++ lowerStr address

/-- The aggregator's target pool `self.targets`: an insertion-ordered dict. -/
abbrev Pool := List (String × ScanTarget)

/-- Dict membership test (`key in d`). -/
def dContains {α : Type} : List (String × α) → String → Bool
  | [], _ => false
  | e :: m, k => e.1 = k || dContains m k

/-- Dict lookup (`d[key]`; bindings are unique under the key-nodup invariant). -/
def dGet {α : Type} : List (String × α) → String → Option α
  | [], _ => none
  | e :: m, k => if e.1 = k then some e.2 else dGet m k

/-- In-place update of the value at a key (dict assignment to a present key). -/
def dUpdate {α : Type} : List (String × α) → String → (α → α) → List (String × α)
  | [], _, _ => []
  | e :: m, k, f => if e.1 = k then (e.1, f e.2) :: dUpdate m k f else e :: dUpdate m k f

/-- Dict assignment `d[key] = v`: overwrite in place if present, else append. -/
def dSet {α : Type} (m : List (String × α)) (k : String) (v : α) :
    List (String × α) :=
  if dContains m k then dUpdate m k (fun _ => v) else m ++ [(k, v)]

/-- The keys of an association-list dict, in order. -/
def dKeys {α : Type} (m : List (String × α)) : List String := m.map (fun e => e.1)

theorem dGet_update_self {α : Type} (m : List (String × α)) (k : String) (f : α → α) :
    dGet (dUpdate m k f) k = (dGet m k).map f := by
  induction m with
  | nil => rfl
  | cons e m ih =>
    by_cases h : e.1 = k
    · simp [dGet, dUpdate, h]
    · simp [dGet, dUpdate, h, ih]

theorem dGet_update_ne {α : Type} (m : List (String × α)) (k k' : String) (f : α → α)
    (h : k' ≠ k) : dGet (dUpdate m k' f) k = dGet m k := by
  induction m with
  | nil => rfl
  | cons e m ih =>
    by_cases he : e.1 = k'
    · have hk : e.1 ≠ k := by rw [he]; exact h
      simp [dGet, dUpdate, he, hk, h, Ne.symm h, ih]
    · by_cases hk : e.1 = k <;> simp [dGet, dUpdate, he, hk, h, Ne.symm h, ih]

theorem dGet_append_absent {α : Type} (m : List (String × α)) (k : String) (v : α)
    (h : dGet m k = none) : dGet (m ++ [(k, v)]) k = some v := by
  induction m with
  | nil => simp [dGet]
  | cons e m ih =>
    by_cases he : e.1 = k
    · simp [dGet, he] at h
    · simp [dGet, he] at h ⊢
      exact ih h

theorem dGet_append_ne {α : Type} (m : List (String × α)) (k k' : String) (v : α)
    (h : k' ≠ k) : dGet (m ++ [(k', v)]) k = dGet m k := by
  induction m with
  | nil => simp [dGet, h]
  | cons e m ih =>
    by_cases he : e.1 = k <;> simp [dGet, he, ih]

theorem dContains_iff_isSome {α : Type} (m : List (String × α)) (k : String) :
    dContains m k = (dGet m k).isSome := by
  induction m with
  | nil => rfl
  | cons e m ih =>
    by_cases he : e.1 = k <;> simp [dContains, dGet, he, ih]

theorem dKeys_update {α : Type} (m : List (String × α)) (k : String) (f : α → α) :
    dKeys (dUpdate m k f) = dKeys m := by
  induction m with
  | nil => rfl
  | cons e m ih =>
    by_cases he : e.1 = k <;> simp [dKeys, dUpdate, he] <;>
      simpa [dKeys] using ih

theorem dContains_eq_mem_keys {α : Type} (m : List (String × α)) (k : String) :
    dContains m k = true ↔ k ∈ dKeys m := by
  induction m with
  | nil => simp [dContains, dKeys]
  | cons e m ih =>
    by_cases he : e.1 = k
    · simp [dContains, dKeys, he]
    · have ih' : dContains m k = true ↔ k ∈ dKeys m := ih
      simp only [dContains, dKeys, List.map_cons, List.mem_cons]
      rw [Bool.or_eq_true]
      constructor
      · intro hor
        rcases hor with hh | hh
        · exact absurd (of_decide_eq_true hh) he
        · exact Or.inr (ih'.mp hh)
      · intro hor
        rcases hor with hh | hh
        · exact absurd hh.symm he
        · exact Or.inr (ih'.mpr hh)

theorem mem_dKeys_of_mem {α : Type} {m : List (String × α)} {k : String} {v : α}
    (hmem : (k, v) ∈ m) : k ∈ dKeys m :=
  List.mem_map.mpr ⟨(k, v), hmem, rfl⟩

theorem dGet_eq_some_of_mem {α : Type} (m : List (String × α)) (k : String) (v : α)
    (hnd : (dKeys m).Nodup) (hmem : (k, v) ∈ m) : dGet m k = some v := by
  induction m with
  | nil => simp at hmem
  | cons e m ih =>
    rw [show dKeys (e :: m) = e.1 :: dKeys m from rfl, List.nodup_cons] at hnd
    rcases List.mem_cons.mp hmem with h | h
    · simp [← h, dGet]
    · have he : e.1 ≠ k := by
        intro hek
        exact hnd.1 (by rw [hek]; exact mem_dKeys_of_mem h)
      simp [dGet, he]
      exact ih hnd.2 h

theorem dGet_dSet_self {α : Type} (m : List (String × α)) (k : String) (v : α) :
    dGet (dSet m k v) k = some v := by
  unfold dSet
  by_cases h : dContains m k = true
  · rw [if_pos h, dGet_update_self]
    rw [dContains_iff_isSome] at h
    rcases Option.isSome_iff_exists.mp h with ⟨w, hw⟩
    simp [hw]
  · rw [if_neg h]
    apply dGet_append_absent
    rw [dContains_iff_isSome] at h
    cases hg : dGet m k with
    | none => rfl
    | some w => rw [hg] at h; simp at h

/-- The `BountyTarget` dataclass of `discovery/immunefi.py` (the shape
`ImmunefiFetcher.get_targets` hands to the aggregator).  `assets_in_scope`
is omitted: `refresh_immunefi` never reads it. -/
structure BountyTarget where
  program : String
  address : String
  chain : String
  name : String
  max_bounty : ℤ
  category : String
  url : String
  deriving DecidableEq

/-- The `ProtocolTarget` dataclass of `discovery/defillama.py` (the shape
`DefiLlamaFetcher.get_top_overall` hands to the aggregator). -/
structure ProtocolTarget where
  name : String
  slug : String
  tvl : ℚ
  chain : String
  category : String
  address : Option String
  url : String
  github : Option String
  deriving DecidableEq

/-- One step of the shared merge loop of `refresh_immunefi` /
`refresh_defillama`: skip the record when `key?` yields none (the
`continue` filters), update in place when the key is present, else append a
fresh `ScanTarget` and count it as newly added. -/
def mergeStep {ρ : Type} (key? : ρ → Option String) (upd : ρ → ScanTarget → ScanTarget)
    (ins : ρ → ScanTarget) (acc : Pool × ℕ) (r : ρ) : Pool × ℕ :=
  match key? r with
  | none => acc
  | some k =>
    if dContains acc.1 k then (dUpdate acc.1 k (upd r), acc.2)
    else (acc.1 ++ [(k, ins r)], acc.2 + 1)

/-- The merge loop run over a full fetcher result, returning the new pool
and the `added` counter. -/
def mergeRecords {ρ : Type} (key? : ρ → Option String) (upd : ρ → ScanTarget → ScanTarget)
    (ins : ρ → ScanTarget) (pool : Pool) (rs : List ρ) : Pool × ℕ :=
  rs.foldl (mergeStep key? upd ins) (pool, 0)

/-- Identity key of an Immunefi record (`refresh_immunefi` never filters). -/
def immunefiKey (t : BountyTarget) : Option String := some (targetKey t.chain t.address)

/-- The update-in-place branch of `refresh_immunefi`: bounty becomes the max
of old and new, the program name is overwritten; nothing else is touched
(in particular the stored `priority_score` is left as it was). -/
def immunefiUpd (t : BountyTarget) (s : ScanTarget) : ScanTarget :=
  { s with max_bounty := max s.max_bounty t.max_bounty, program := some t.program }

/-- The insert branch of `refresh_immunefi` (tvl 0, `has_bounty=True`). -/
def immunefiIns (M : ScoreModel) (t : BountyTarget) : ScanTarget :=
  { address := t.address, chain := t.chain, name := t.name,
    program := some t.program, max_bounty := t.max_bounty, tvl := 0,
    priority_score := calculate_priority M t.max_bounty 0 true t.chain,
    source := "immunefi", category := t.category, url := some t.url,
    last_scanned := none }

/-- `TargetAggregator.refresh_immunefi`, applied to the fetched target list. -/
def refresh_immunefi (M : ScoreModel) (pool : Pool) (ts : List BountyTarget) :
    Pool × ℕ :=
  mergeRecords immunefiKey immunefiUpd (immunefiIns M) pool ts

/-- Filter-and-key of a DeFiLlama record: records with a falsy address or
with `tvl < min_tvl` are skipped (`continue`), the rest are keyed. -/
def defillamaKey (min_tvl : ℚ) (t : ProtocolTarget) : Option String :=
  match t.address with
  | none => none
  | some a =>
    if a.data.isEmpty then none
    else if t.tvl < min_tvl then none
    else some (targetKey t.chain a)

/-- The update-in-place branch of `refresh_defillama`: the TVL is overwritten
and the priority score is recomputed from the stored bounty, the fresh TVL,
the truthiness of the stored program, and the record's chain. -/
def defillamaUpd (M : ScoreModel) (t : ProtocolTarget) (s : ScanTarget) : ScanTarget :=
  { s with
    tvl := t.tvl,
    priority_score := calculate_priority M s.max_bounty t.tvl (optStrTruthy s.program) t.chain }

/-- The insert branch of `refresh_defillama` (no bounty program known).
`ins` is only reached when `defillamaKey` produced a key, so the address
option is populated; `getD` is just the unwrapping. -/
def defillamaIns (M : ScoreModel) (t : ProtocolTarget) : ScanTarget :=
  { address := t.address.getD "", chain := t.chain, name := t.name,
    program := none, max_bounty := 0, tvl := t.tvl,
    priority_score := calculate_priority M 0 t.tvl false t.chain,
    source := "defillama", category := t.category, url := some t.url,
    last_scanned := none }

/-- `TargetAggregator.refresh_defillama`, applied to the fetched list. -/
def refresh_defillama (M : ScoreModel) (min_tvl : ℚ) (pool : Pool)
    (ts : List ProtocolTarget) : Pool × ℕ :=
  mergeRecords (defillamaKey min_tvl) (defillamaUpd M) (defillamaIns M) pool ts

/-- `TargetAggregator.add_manual_target`: unconditionally assigns a brand-new
`ScanTarget` at the identity key (overwriting whatever was there). -/
def add_manual_target (M : ScoreModel) (pool : Pool) (address chain name : String)
    (program : Option String) (max_bounty : ℤ) : Pool :=
  dSet pool (targetKey chain address)
    { address := address, chain := chain, name := name, program := program,
      max_bounty := max_bounty, tvl := 0,
      priority_score := calculate_priority M max_bounty 0 (optStrTruthy program) chain,
      source := "manual", category := "manual", url := none, last_scanned := none }

/-- One entry of the scan-history ledger `self.scanned`. -/
structure ScanEntry where
  timestamp : ℚ
  session_id : Option String
  deriving DecidableEq

/-- The scan-history store, keyed by the same identity key. -/
abbrev ScanHistory := List (String × ScanEntry)

/-- `TargetAggregator.mark_scanned`: upserts the history entry at the key and
stamps `last_scanned` on the matching pool target if it exists. -/
def mark_scanned (pool : Pool) (scanned : ScanHistory) (address chain : String)
    (session_id : Option String) (now : ℚ) : Pool × ScanHistory :=
  let key := targetKey chain address
  let scanned' := dSet scanned key ⟨now, session_id⟩
  let pool' :=
    if dContains pool key then dUpdate pool key (fun t => { t with last_scanned := some now })
    else pool
  (pool', scanned')

/-- The recency filter of `get_unscanned`: a pool entry survives unless its
history entry is strictly newer than `now - days_since_scan`. -/
def eligibleEntry (scanned : ScanHistory) (cutoff : ℚ) (e : String × ScanTarget) : Bool :=
  match dGet scanned e.1 with
  | some entry => decide (entry.timestamp ≤ cutoff)
  | none => true

/-- The stable descending sort on `priority_score` (`list.sort(key=...,
reverse=True)`). -/
def sortByPriority (l : List ScanTarget) : List ScanTarget :=
  l.mergeSort (fun a b => decide (b.priority_score ≤ a.priority_score))

/-- `TargetAggregator.get_unscanned`: drop recently scanned targets, sort by
descending priority, return the first `limit`.  Time is measured in days. -/
def get_unscanned (pool : Pool) (scanned : ScanHistory) (now : ℚ) (limit : ℕ)
    (days_since_scan : ℤ) : List ScanTarget :=
  (sortByPriority
    ((pool.filter (eligibleEntry scanned (now - (days_since_scan : ℚ)))).map
      (fun e => e.2))).take limit

/-- The cumulative effect of one merge pass on the value stored at key `k`:
every record keyed `k` applies its update, in order. -/
def foldUpdKey {ρ : Type} (key? : ρ → Option String) (upd : ρ → ScanTarget → ScanTarget)
    (k : String) (rs : List ρ) (v : ScanTarget) : ScanTarget :=
  rs.foldl (fun v r => if key? r = some k then upd r v else v) v

/-- First record of a pass keyed `k` (the one whose merge inserts the key). -/
def firstRecOfKey {ρ : Type} (key? : ρ → Option String) (k : String) (rs : List ρ) :
    Option ρ :=
  rs.find? (fun r => key? r = some k)

/-- Last record of a pass keyed `k` (for last-write-wins updates). -/
def lastRecOfKey {ρ : Type} (key? : ρ → Option String) (k : String) :
    List ρ → Option ρ
  | [] => none
  | r :: rs =>
    match lastRecOfKey key? k rs with
    | some r' => some r'
    | none => if key? r = some k then some r else none

theorem dContains_update {α : Type} (m : List (String × α)) (k0 k : String) (f : α → α) :
    dContains (dUpdate m k0 f) k = dContains m k := by
  induction m with
  | nil => rfl
  | cons e m ih =>
    by_cases he : e.1 = k0 <;> simp [dContains, dUpdate, he, ih]

theorem dKeys_append {α : Type} (m : List (String × α)) (k : String) (v : α) :
    dKeys (m ++ [(k, v)]) = dKeys m ++ [k] := by
  simp [dKeys]

theorem mergeStep_none {ρ : Type} {key? : ρ → Option String}
    {upd : ρ → ScanTarget → ScanTarget} {ins : ρ → ScanTarget} {r : ρ}
    (acc : Pool × ℕ) (hk : key? r = none) : mergeStep key? upd ins acc r = acc := by
  simp [mergeStep, hk]

theorem mergeStep_update {ρ : Type} {key? : ρ → Option String}
    {upd : ρ → ScanTarget → ScanTarget} {ins : ρ → ScanTarget} {r : ρ} {k : String}
    (acc : Pool × ℕ) (hk : key? r = some k) (hc : dContains acc.1 k = true) :
    mergeStep key? upd ins acc r = (dUpdate acc.1 k (upd r), acc.2) := by
  simp [mergeStep, hk, hc]

theorem mergeStep_insert {ρ : Type} {key? : ρ → Option String}
    {upd : ρ → ScanTarget → ScanTarget} {ins : ρ → ScanTarget} {r : ρ} {k : String}
    (acc : Pool × ℕ) (hk : key? r = some k) (hc : ¬dContains acc.1 k = true) :
    mergeStep key? upd ins acc r = (acc.1 ++ [(k, ins r)], acc.2 + 1) := by
  simp [mergeStep, hk, hc]

theorem mergeRecords_shift {ρ : Type} (key? : ρ → Option String)
    (upd : ρ → ScanTarget → ScanTarget) (ins : ρ → ScanTarget) :
    ∀ (rs : List ρ) (p : Pool) (n : ℕ),
      rs.foldl (mergeStep key? upd ins) (p, n) =
        ((mergeRecords key? upd ins p rs).1, n + (mergeRecords key? upd ins p rs).2) := by
  intro rs
  induction rs with
  | nil => intro p n; simp [mergeRecords]
  | cons r rs ih =>
    intro p n
    have hrec : mergeRecords key? upd ins p (r :: rs) =
        List.foldl (mergeStep key? upd ins) (mergeStep key? upd ins (p, 0) r) rs := rfl
    rw [List.foldl_cons, hrec]
    cases hk : key? r with
    | none =>
      rw [mergeStep_none (p, n) hk, mergeStep_none (p, 0) hk, ih p n, ih p 0]
      simp
    | some k =>
      by_cases hc : dContains p k = true
      · rw [mergeStep_update (p, n) hk hc, mergeStep_update (p, 0) hk hc,
          ih (dUpdate p k (upd r)) n, ih (dUpdate p k (upd r)) 0]
        simp
      · rw [mergeStep_insert (p, n) hk hc, mergeStep_insert (p, 0) hk hc,
          ih (p ++ [(k, ins r)]) (n + 1), ih (p ++ [(k, ins r)]) 1]
        simp
        omega

theorem mergeRecords_cons {ρ : Type} (key? : ρ → Option String)
    (upd : ρ → ScanTarget → ScanTarget) (ins : ρ → ScanTarget) (p : Pool) (r : ρ)
    (rs : List ρ) :
    (mergeRecords key? upd ins p (r :: rs)).1 =
      (mergeRecords key? upd ins (mergeStep key? upd ins (p, 0) r).1 rs).1 := by
  show (List.foldl _ (mergeStep key? upd ins (p, 0) r) rs).1 = _
  obtain ⟨q, d⟩ := mergeStep key? upd ins (p, 0) r
  rw [mergeRecords_shift key? upd ins rs q d]

theorem foldUpdKey_cons_skip {ρ : Type} (key? : ρ → Option String)
    (upd : ρ → ScanTarget → ScanTarget) (k : String) (r : ρ) (rs : List ρ)
    (v : ScanTarget) (h : ¬key? r = some k) :
    foldUpdKey key? upd k (r :: rs) v = foldUpdKey key? upd k rs v := by
  simp [foldUpdKey, h]

theorem foldUpdKey_cons_hit {ρ : Type} (key? : ρ → Option String)
    (upd : ρ → ScanTarget → ScanTarget) (k : String) (r : ρ) (rs : List ρ)
    (v : ScanTarget) (h : key? r = some k) :
    foldUpdKey key? upd k (r :: rs) v = foldUpdKey key? upd k rs (upd r v) := by
  simp [foldUpdKey, h]

/-- Characterization of one merge pass, entry by entry: the value the pass
leaves at key `k` is the old value (or, for a fresh key, the insertion of the
first record keyed `k`) with all updates of records keyed `k` folded over it.
`hIns` is the fact that merging a record into its own insertion is a no-op —
true of both refresh operations. -/
theorem dGet_mergeRecords {ρ : Type} (key? : ρ → Option String)
    (upd : ρ → ScanTarget → ScanTarget) (ins : ρ → ScanTarget)
    (hIns : ∀ r : ρ, upd r (ins r) = ins r) :
    ∀ (rs : List ρ) (pool : Pool) (k : String),
      dGet (mergeRecords key? upd ins pool rs).1 k =
        match dGet pool k with
        | some v => some (foldUpdKey key? upd k rs v)
        | none =>
          match firstRecOfKey key? k rs with
          | some r => some (foldUpdKey key? upd k rs (ins r))
          | none => none := by
  intro rs
  induction rs with
  | nil =>
    intro pool k
    cases h : dGet pool k <;> simp [mergeRecords, firstRecOfKey, foldUpdKey, h]
  | cons r rs ih =>
    intro pool k
    rw [mergeRecords_cons]
    cases hk : key? r with
    | none =>
      rw [mergeStep_none (pool, 0) hk]
      rw [ih pool k]
      have hskip : ¬key? r = some k := by simp [hk]
      have hfirst : firstRecOfKey key? k (r :: rs) = firstRecOfKey key? k rs := by
        simp [firstRecOfKey, List.find?_cons, hk]
      cases h : dGet pool k with
      | some v => simp [foldUpdKey_cons_skip key? upd k r rs v hskip]
      | none =>
        rw [hfirst]
        cases hfr : firstRecOfKey key? k rs with
        | some r0 => simp [foldUpdKey_cons_skip key? upd k r rs (ins r0) hskip]
        | none => simp
    | some k0 =>
      by_cases hkk : k0 = k
      · subst hkk
        by_cases hc : dContains pool k0 = true
        · rw [mergeStep_update (pool, 0) hk hc]
          rw [ih (dUpdate pool k0 (upd r)) k0]
          rw [dGet_update_self]
          rw [dContains_iff_isSome] at hc
          rcases Option.isSome_iff_exists.mp hc with ⟨v, hv⟩
          rw [hv]
          simp [foldUpdKey_cons_hit key? upd k0 r rs v hk]
        · rw [mergeStep_insert (pool, 0) hk hc]
          rw [ih (pool ++ [(k0, ins r)]) k0]
          rw [dContains_iff_isSome] at hc
          have hnone : dGet pool k0 = none := by
            cases h : dGet pool k0 with
            | none => rfl
            | some v => rw [h] at hc; simp at hc
          rw [dGet_append_absent pool k0 (ins r) hnone, hnone]
          have hfirst : firstRecOfKey key? k0 (r :: rs) = some r := by
            simp [firstRecOfKey, List.find?_cons, hk]
          rw [hfirst]
          simp [foldUpdKey_cons_hit key? upd k0 r rs (ins r) hk, hIns r]
      · have hskip : ¬key? r = some k := by simp [hk, hkk]
        have hfirst : firstRecOfKey key? k (r :: rs) = firstRecOfKey key? k rs := by
          simp [firstRecOfKey, List.find?_cons, hk, hkk]
        by_cases hc : dContains pool k0 = true
        · rw [mergeStep_update (pool, 0) hk hc]
          rw [ih (dUpdate pool k0 (upd r)) k]
          rw [dGet_update_ne pool k k0 (upd r) hkk]
          rw [hfirst]
          cases h : dGet pool k with
          | some v => simp [foldUpdKey_cons_skip key? upd k r rs v hskip]
          | none =>
            cases hfr : firstRecOfKey key? k rs with
            | some r0 => simp [foldUpdKey_cons_skip key? upd k r rs (ins r0) hskip]
            | none => simp
        · rw [mergeStep_insert (pool, 0) hk hc]
          rw [ih (pool ++ [(k0, ins r)]) k]
          rw [dGet_append_ne pool k k0 (ins r) hkk]
          rw [hfirst]
          cases h : dGet pool k with
          | some v => simp [foldUpdKey_cons_skip key? upd k r rs v hskip]
          | none =>
            cases hfr : firstRecOfKey key? k rs with
            | some r0 => simp [foldUpdKey_cons_skip key? upd k r rs (ins r0) hskip]
            | none => simp

/-- A merge pass never duplicates an identity key: updates keep the key list
unchanged, and an insert appends a key that was absent. -/
theorem dKeys_nodup_mergeRecords {ρ : Type} (key? : ρ → Option String)
    (upd : ρ → ScanTarget → ScanTarget) (ins : ρ → ScanTarget) :
    ∀ (rs : List ρ) (pool : Pool), (dKeys pool).Nodup →
      (dKeys (mergeRecords key? upd ins pool rs).1).Nodup := by
  intro rs
  induction rs with
  | nil => intro pool h; exact h
  | cons r rs ih =>
    intro pool h
    rw [mergeRecords_cons]
    cases hk : key? r with
    | none =>
      rw [mergeStep_none (pool, 0) hk]
      exact ih pool h
    | some k =>
      by_cases hc : dContains pool k = true
      · rw [mergeStep_update (pool, 0) hk hc]
        apply ih
        rw [dKeys_update]
        exact h
      · rw [mergeStep_insert (pool, 0) hk hc]
        apply ih
        rw [dKeys_append, List.nodup_append]
        refine ⟨h, List.nodup_singleton k, ?_⟩
        intro x hx hx'
        rcases List.mem_singleton.mp hx' with rfl
        exact hc ((dContains_eq_mem_keys pool x).mpr hx)

/-- After a pass, the key of every non-skipped input record is present. -/
theorem dContains_mergeRecords_of_mem {ρ : Type} (key? : ρ → Option String)
    (upd : ρ → ScanTarget → ScanTarget) (ins : ρ → ScanTarget)
    (hIns : ∀ r : ρ, upd r (ins r) = ins r) (rs : List ρ) (pool : Pool) (r : ρ)
    (k : String) (hr : r ∈ rs) (hk : key? r = some k) :
    dContains (mergeRecords key? upd ins pool rs).1 k = true := by
  rw [dContains_iff_isSome, dGet_mergeRecords key? upd ins hIns rs pool k]
  cases h : dGet pool k with
  | some v => simp
  | none =>
    cases hfr : firstRecOfKey key? k rs with
    | some r0 => simp
    | none =>
      exfalso
      have := List.find?_eq_none.mp hfr r hr
      simp [hk] at this

/-- When every record's key is already present, a pass inserts nothing: it is
the pure entrywise fold of the update branch, and the `added` counter is 0. -/
theorem mergeRecords_all_present {ρ : Type} (key? : ρ → Option String)
    (upd : ρ → ScanTarget → ScanTarget) (ins : ρ → ScanTarget) :
    ∀ (rs : List ρ) (pool : Pool),
      (∀ r ∈ rs, ∀ k, key? r = some k → dContains pool k = true) →
      mergeRecords key? upd ins pool rs =
        (pool.map (fun e => (e.1, foldUpdKey key? upd e.1 rs e.2)), 0) := by
  intro rs
  induction rs with
  | nil =>
    intro pool _
    simp [mergeRecords, foldUpdKey]
  | cons r rs ih =>
    intro pool hp
    have hcons : mergeRecords key? upd ins pool (r :: rs) =
        List.foldl (mergeStep key? upd ins) (mergeStep key? upd ins (pool, 0) r) rs := rfl
    cases hk : key? r with
    | none =>
      rw [hcons, mergeStep_none (pool, 0) hk]
      have : List.foldl (mergeStep key? upd ins) (pool, 0) rs =
          mergeRecords key? upd ins pool rs := rfl
      rw [this, ih pool (fun r' hr' k hk' => hp r' (List.mem_cons_of_mem r hr') k hk')]
      congr 1
      apply List.map_congr_left
      intro e _
      have : ¬key? r = some e.1 := by simp [hk]
      rw [foldUpdKey_cons_skip key? upd e.1 r rs e.2 this]
    | some k0 =>
      have hc : dContains pool k0 = true := hp r (List.mem_cons_self r rs) k0 hk
      rw [hcons, mergeStep_update (pool, 0) hk hc]
      have : List.foldl (mergeStep key? upd ins) (dUpdate pool k0 (upd r), 0) rs =
          mergeRecords key? upd ins (dUpdate pool k0 (upd r)) rs := rfl
      rw [this]
      have hp' : ∀ r' ∈ rs, ∀ k, key? r' = some k → dContains (dUpdate pool k0 (upd r)) k = true := by
        intro r' hr' k hk'
        rw [dContains_update]
        exact hp r' (List.mem_cons_of_mem r hr') k hk'
      rw [ih (dUpdate pool k0 (upd r)) hp']
      congr 1
      have hmap : ∀ p : Pool,
          (dUpdate p k0 (upd r)).map (fun e => (e.1, foldUpdKey key? upd e.1 rs e.2)) =
            p.map (fun e => (e.1, foldUpdKey key? upd e.1 (r :: rs) e.2)) := by
        intro p
        induction p with
        | nil => rfl
        | cons e p ihp =>
          by_cases he : e.1 = k0
          · have hhit : key? r = some e.1 := by rw [hk, he]
            simp only [dUpdate]
            rw [if_pos he]
            simp only [List.map_cons]
            rw [foldUpdKey_cons_hit key? upd e.1 r rs e.2 hhit]
            rw [ihp]
          · have hskip : ¬key? r = some e.1 := by
              rw [hk]
              intro hcon
              exact he (Option.some.inj hcon).symm
            simp only [dUpdate]
            rw [if_neg he]
            simp only [List.map_cons]
            rw [foldUpdKey_cons_skip key? upd e.1 r rs e.2 hskip]
            rw [ihp]
      exact hmap pool

/-- Generic idempotence of a merge pass: replayed on its own output with the
identical record list, it performs only absorbing updates, adds nothing, and
leaves the pool exactly as it was. -/
theorem mergeRecords_idem {ρ : Type} (key? : ρ → Option String)
    (upd : ρ → ScanTarget → ScanTarget) (ins : ρ → ScanTarget)
    (hIns : ∀ r : ρ, upd r (ins r) = ins r)
    (habsorb : ∀ (k : String) (rs : List ρ) (v : ScanTarget),
      foldUpdKey key? upd k rs (foldUpdKey key? upd k rs v) = foldUpdKey key? upd k rs v)
    (pool : Pool) (rs : List ρ) (hnd : (dKeys pool).Nodup) :
    mergeRecords key? upd ins (mergeRecords key? upd ins pool rs).1 rs =
      ((mergeRecords key? upd ins pool rs).1, 0) := by
  have hndQ : (dKeys (mergeRecords key? upd ins pool rs).1).Nodup :=
    dKeys_nodup_mergeRecords key? upd ins rs pool hnd
  have hpres : ∀ r ∈ rs, ∀ k, key? r = some k →
      dContains (mergeRecords key? upd ins pool rs).1 k = true := by
    intro r hr k hk
    exact dContains_mergeRecords_of_mem key? upd ins hIns rs pool r k hr hk
  rw [mergeRecords_all_present key? upd ins rs _ hpres]
  congr 1
  have habs : ∀ e ∈ (mergeRecords key? upd ins pool rs).1,
      foldUpdKey key? upd e.1 rs e.2 = e.2 := by
    intro e he
    have hget : dGet (mergeRecords key? upd ins pool rs).1 e.1 = some e.2 :=
      dGet_eq_some_of_mem _ e.1 e.2 hndQ he
    rw [dGet_mergeRecords key? upd ins hIns rs pool e.1] at hget
    cases h : dGet pool e.1 with
    | some v =>
      rw [h] at hget
      simp only [Option.some.injEq] at hget
      rw [← hget]
      exact habsorb e.1 rs v
    | none =>
      rw [h] at hget
      cases hf : firstRecOfKey key? e.1 rs with
      | some r0 =>
        rw [hf] at hget
        simp only [Option.some.injEq] at hget
        rw [← hget]
        exact habsorb e.1 rs (ins r0)
      | none =>
        rw [hf] at hget
        exact absurd hget (by simp)
  calc (mergeRecords key? upd ins pool rs).1.map (fun e => (e.1, foldUpdKey key? upd e.1 rs e.2))
      = (mergeRecords key? upd ins pool rs).1.map (fun e => e) :=
        List.map_congr_left (fun e he => by rw [habs e he])
    _ = (mergeRecords key? upd ins pool rs).1 := List.map_id _

/-- Effect of one immunefi pass's key-`k` updates on the stored bounty. -/
def mbAfter (k : String) (rs : List BountyTarget) (m : ℤ) : ℤ :=
  rs.foldl (fun m r => if immunefiKey r = some k then max m r.max_bounty else m) m

/-- Effect of one immunefi pass's key-`k` updates on the stored program. -/
def progAfter (k : String) (rs : List BountyTarget) (p : Option String) : Option String :=
  rs.foldl (fun p r => if immunefiKey r = some k then some r.program else p) p

theorem mbAfter_cons_hit {k : String} {r : BountyTarget} (rs : List BountyTarget)
    (m : ℤ) (h : immunefiKey r = some k) :
    mbAfter k (r :: rs) m = mbAfter k rs (max m r.max_bounty) := by
  simp [mbAfter, h]

theorem mbAfter_cons_skip {k : String} {r : BountyTarget} (rs : List BountyTarget)
    (m : ℤ) (h : ¬immunefiKey r = some k) :
    mbAfter k (r :: rs) m = mbAfter k rs m := by
  simp [mbAfter, h]

theorem progAfter_cons_hit {k : String} {r : BountyTarget} (rs : List BountyTarget)
    (p : Option String) (h : immunefiKey r = some k) :
    progAfter k (r :: rs) p = progAfter k rs (some r.program) := by
  simp [progAfter, h]

theorem progAfter_cons_skip {k : String} {r : BountyTarget} (rs : List BountyTarget)
    (p : Option String) (h : ¬immunefiKey r = some k) :
    progAfter k (r :: rs) p = progAfter k rs p := by
  simp [progAfter, h]

/-- Componentwise characterization of the immunefi per-key update fold. -/
theorem foldUpdKey_immunefi (k : String) :
    ∀ (rs : List BountyTarget) (v : ScanTarget),
      foldUpdKey immunefiKey immunefiUpd k rs v =
        { v with max_bounty := mbAfter k rs v.max_bounty,
                 program := progAfter k rs v.program } := by
  intro rs
  induction rs with
  | nil => intro v; rfl
  | cons r rs ih =>
    intro v
    by_cases h : immunefiKey r = some k
    · rw [foldUpdKey_cons_hit immunefiKey immunefiUpd k r rs v h]
      rw [ih (immunefiUpd r v)]
      rw [mbAfter_cons_hit rs v.max_bounty h, progAfter_cons_hit rs v.program h]
      rfl
    · rw [foldUpdKey_cons_skip immunefiKey immunefiUpd k r rs v h]
      rw [ih v]
      rw [mbAfter_cons_skip rs v.max_bounty h, progAfter_cons_skip rs v.program h]

theorem mbAfter_le (k : String) :
    ∀ (rs : List BountyTarget) (m : ℤ), m ≤ mbAfter k rs m := by
  intro rs
  induction rs with
  | nil => intro m; exact le_refl m
  | cons r rs ih =>
    intro m
    by_cases h : immunefiKey r = some k
    · rw [mbAfter_cons_hit rs m h]
      exact le_trans (le_max_left m r.max_bounty) (ih _)
    · rw [mbAfter_cons_skip rs m h]
      exact ih m

theorem mbAfter_absorb (k : String) :
    ∀ (rs : List BountyTarget) (m : ℤ), mbAfter k rs (mbAfter k rs m) = mbAfter k rs m := by
  intro rs
  induction rs with
  | nil => intro m; rfl
  | cons r rs ih =>
    intro m
    by_cases h : immunefiKey r = some k
    · rw [mbAfter_cons_hit rs m h, mbAfter_cons_hit rs (mbAfter k rs (max m r.max_bounty)) h]
      have hb : r.max_bounty ≤ mbAfter k rs (max m r.max_bounty) :=
        le_trans (le_max_right m r.max_bounty) (mbAfter_le k rs _)
      rw [max_eq_left hb]
      exact ih _
    · rw [mbAfter_cons_skip rs m h, mbAfter_cons_skip rs _ h]
      exact ih m

theorem progAfter_absorb (k : String) :
    ∀ (rs : List BountyTarget) (p : Option String),
      progAfter k rs (progAfter k rs p) = progAfter k rs p := by
  intro rs
  induction rs with
  | nil => intro p; rfl
  | cons r rs ih =>
    intro p
    by_cases h : immunefiKey r = some k
    · rw [progAfter_cons_hit rs p h, progAfter_cons_hit rs _ h]
    · rw [progAfter_cons_skip rs p h, progAfter_cons_skip rs _ h]
      exact ih p

theorem foldUpdKey_immunefi_absorb (k : String) (rs : List BountyTarget) (v : ScanTarget) :
    foldUpdKey immunefiKey immunefiUpd k rs (foldUpdKey immunefiKey immunefiUpd k rs v) =
      foldUpdKey immunefiKey immunefiUpd k rs v := by
  rw [foldUpdKey_immunefi k rs v, foldUpdKey_immunefi k rs _]
  simp only [mbAfter_absorb, progAfter_absorb]

/-- Merging a record over its own insertion is a no-op (immunefi side). -/
theorem immunefiUpd_ins (M : ScoreModel) (r : BountyTarget) :
    immunefiUpd r (immunefiIns M r) = immunefiIns M r := by
  simp [immunefiUpd, immunefiIns]

/-- Two successive updates from records of the same key: the second one wins
and the recomputed score only reads fields the first one did not touch. -/
theorem defillamaUpd_comp (M : ScoreModel) (r r' : ProtocolTarget) (v : ScanTarget) :
    defillamaUpd M r' (defillamaUpd M r v) = defillamaUpd M r' v := rfl

/-- Merging a record over its own insertion is a no-op (defillama side). -/
theorem defillamaUpd_ins (M : ScoreModel) (r : ProtocolTarget) :
    defillamaUpd M r (defillamaIns M r) = defillamaIns M r := rfl

/-- Last-write-wins characterization of the defillama per-key update fold. -/
theorem foldUpdKey_defillama (M : ScoreModel) (min_tvl : ℚ) (k : String) :
    ∀ (rs : List ProtocolTarget) (v : ScanTarget),
      foldUpdKey (defillamaKey min_tvl) (defillamaUpd M) k rs v =
        match lastRecOfKey (defillamaKey min_tvl) k rs with
        | none => v
        | some r => defillamaUpd M r v := by
  intro rs
  induction rs with
  | nil => intro v; rfl
  | cons r rs ih =>
    intro v
    by_cases h : defillamaKey min_tvl r = some k
    · rw [foldUpdKey_cons_hit (defillamaKey min_tvl) (defillamaUpd M) k r rs v h]
      rw [ih (defillamaUpd M r v)]
      cases hl : lastRecOfKey (defillamaKey min_tvl) k rs with
      | none => simp [lastRecOfKey, hl, h]
      | some r' => simp [lastRecOfKey, hl, h, defillamaUpd_comp]
    · rw [foldUpdKey_cons_skip (defillamaKey min_tvl) (defillamaUpd M) k r rs v h]
      rw [ih v]
      cases hl : lastRecOfKey (defillamaKey min_tvl) k rs with
      | none => simp [lastRecOfKey, hl, h]
      | some r' => simp [lastRecOfKey, hl, h]

theorem foldUpdKey_defillama_absorb (M : ScoreModel) (min_tvl : ℚ) (k : String)
    (rs : List ProtocolTarget) (v : ScanTarget) :
    foldUpdKey (defillamaKey min_tvl) (defillamaUpd M) k rs
        (foldUpdKey (defillamaKey min_tvl) (defillamaUpd M) k rs v) =
      foldUpdKey (defillamaKey min_tvl) (defillamaUpd M) k rs v := by
  rw [foldUpdKey_defillama M min_tvl k rs v]
  cases hl : lastRecOfKey (defillamaKey min_tvl) k rs with
  | none =>
    rw [foldUpdKey_defillama M min_tvl k rs v, hl]
  | some r =>
    rw [foldUpdKey_defillama M min_tvl k rs (defillamaUpd M r v), hl]
    exact defillamaUpd_comp M r r v

/-- The `Finding` dataclass of `aggregator/extractor.py`. -/
structure Finding where
  contract_name : String
  contract_address : String
  chain : String
  vuln_type : String
  severity : String
  confidence : ℤ
  description : String
  poc_code : Option String := none
  bounty_program : Option String := none
  max_bounty : Option ℤ := none
  pr_url : Option String := none
  session_id : Option String := none
  deriving DecidableEq

/-- The `NotificationConfig` dataclass of `aggregator/notifier.py`. -/
structure NotificationConfig where
  min_confidence : ℤ := 70
  min_severity : String := "Medium"
  dedupe_hours : ℤ := 24
  deriving DecidableEq

/-- The fixed `SEVERITY_ORDER` list (most severe first). -/
def SEVERITY_ORDER : List String := ["Critical", "High", "Medium", "Low"]

/-- The pre-hash dedup key `f"{contract_address}:{vuln_type}:{severity}"`:
the only data `_finding_hash` feeds into md5. -/
def finding_key (f : Finding) : String :=
  f.contract_address ++ ":" ++ f.vuln_type ++ ":" ++ f.severity

/-- `FindingsNotifier._finding_hash`: the first 12 hex digits of the md5 of
`finding_key`.  md5 is a pure function of its input string and is carried as
the parameter `md5hex`; every dedup fact proved here holds for any choice. -/
def finding_hash (md5hex : String → String) (f : Finding) : String :=
  String.mk ((md5hex (finding_key f)).data.take 12)

/-- The sent-notification ledger `self.sent`: finding-hash → timestamp
(timestamps in seconds). -/
abbrev SentLedger := List (String × ℚ)

/-- `FindingsNotifier._is_duplicate`: the hash was sent and strictly fewer
than `dedupe_hours` hours ago (`total_seconds() / 3600`). -/
def is_duplicate (md5hex : String → String) (cfg : NotificationConfig)
    (sent : SentLedger) (now : ℚ) (f : Finding) : Bool :=
  match dGet sent (finding_hash md5hex f) with
  | some sentTime => decide ((now - sentTime) / 3600 < (cfg.dedupe_hours : ℚ))
  | none => false

/-- `FindingsNotifier._mark_sent`. -/
def mark_sent (md5hex : String → String) (sent : SentLedger) (f : Finding)
    (now : ℚ) : SentLedger :=
  dSet sent (finding_hash md5hex f) now

/-- Index of a severity string in `SEVERITY_ORDER` (the `list.index` call;
`none` models the `ValueError` for unknown strings). -/
def severityIdx (s : String) : Option ℕ :=
  SEVERITY_ORDER.findIdx? (fun x => x == s)

/-- `FindingsNotifier._severity_meets_threshold`: index-at-most-threshold,
`False` when either string is not in the fixed order (the `except ValueError`
branch). -/
def severity_meets_threshold (cfg : NotificationConfig) (severity : String) : Bool :=
  match severityIdx severity, severityIdx cfg.min_severity with
  | some fi, some ti => decide (fi ≤ ti)
  | _, _ => false

/-- `FindingsNotifier.should_notify`: confidence gate, then severity gate,
then dedup gate. -/
def should_notify (md5hex : String → String) (cfg : NotificationConfig)
    (sent : SentLedger) (now : ℚ) (f : Finding) : Bool :=
  if f.confidence < cfg.min_confidence then false
  else if !severity_meets_threshold cfg f.severity then false
  else if is_duplicate md5hex cfg sent now f then false
  else true

/-- Outcome of one `requests` round-trip of `ImmunefiFetcher.fetch_programs`,
with the fallible network/parse effects reified: `success` is a fetched page
whose `__NEXT_DATA__` blob parsed into a bounty list, `successNoData` a page
without the embedded blob (the regex missed), `error` any raised exception. -/
inductive FetchOutcome (α : Type) where
  | success (bounties : List α)
  | successNoData
  | error
  deriving DecidableEq

/-- `ImmunefiFetcher._load_cache`: cached payload if the cache file exists,
else the empty list. -/
def load_cache {α : Type} (cache : Option (List α)) : List α := cache.getD []

/-- `ImmunefiFetcher.fetch_programs`: on success return (and cache) the
parsed list; when the page has no data blob, or on any exception, fall back
to `_load_cache`.  Returns the payload and the new cache state. -/
def fetch_programs {α : Type} (outcome : FetchOutcome α) (cache : Option (List α)) :
    List α × Option (List α) :=
  match outcome with
  | .success b => (b, some b)
  | .successNoData => (load_cache cache, cache)
  | .error => (load_cache cache, cache)

/-- `DefiLlamaFetcher.fetch_protocols`: on success return (and cache) the
parsed JSON list; on any exception fall back to `_load_cache`. -/
def fetch_protocols {α : Type} (outcome : Except Unit (List α)) (cache : Option (List α)) :
    List α × Option (List α) :=
  match outcome with
  | .ok p => (p, some p)
  | .error _ => (load_cache cache, cache)

/-- Python `\s` on the ASCII range (the characters these texts contain). -/
def isSpc (c : Char) : Bool :=
  c = ' ' || c = '\t' || c = '\n' || c = '\r' || c = '\x0b' || c = '\x0c'

/-- Case-insensitive match of a (pre-lowered) literal pattern at the head of
the input; returns the rest on success. -/
def matchCI : List Char → List Char → Option (List Char)
  | [], s => some s
  | _ :: _, [] => none
  | p :: ps, c :: cs => if lowChar c = p then matchCI ps cs else none

/-- Case-insensitive match of a (pre-lowered) word at the head of the input,
returning the matched original-case characters (the regex capture) and the
rest. -/
def matchWordCI : List Char → List Char → Option (List Char × List Char)
  | [], s => some ([], s)
  | _ :: _, [] => none
  | p :: ps, c :: cs =>
    if lowChar c = p then
      match matchWordCI ps cs with
      | some (w, rest) => some (c :: w, rest)
      | none => none
    else none

/-- The alternation `(Critical|High|Medium|Low)` with `re.IGNORECASE` (the
four words start with distinct letters, so at most one branch matches). -/
def matchSeverity (s : List Char) : Option (List Char × List Char) :=
  match matchWordCI "critical".data s with
  | some r => some r
  | none =>
    match matchWordCI "high".data s with
    | some r => some r
    | none =>
      match matchWordCI "medium".data s with
      | some r => some r
      | none => matchWordCI "low".data s

/-- Decimal value of a digit run (`int` applied to the `\d+` capture). -/
def digitsToNat (ds : List Char) : ℕ :=
  ds.foldl (fun n c => 10 * n + (c.toNat - 48)) 0

/-- `re.findall(r'Severity:\s*(Critical|High|Medium|Low)', text, re.I)`:
left-to-right, non-overlapping; a failed attempt advances one character, a
match resumes at its end.  One unit of fuel is spent per attempted start
position, so `length + 1` fuel is always enough. -/
def scanSeverityLabeled : ℕ → List Char → List (List Char)
  | 0, _ => []
  | _, [] => []
  | fuel + 1, c :: cs =>
    match matchCI "severity:".data (c :: cs) with
    | some rest =>
      match matchSeverity (rest.dropWhile isSpc) with
      | some (w, rest2) => w :: scanSeverityLabeled fuel rest2
      | none => scanSeverityLabeled fuel cs
    | none => scanSeverityLabeled fuel cs

/-- `re.findall(r'\*\*(Critical|High|Medium|Low)\*\*', text, re.I)`. -/
def scanBoldSeverity : ℕ → List Char → List (List Char)
  | 0, _ => []
  | _, [] => []
  | fuel + 1, '*' :: '*' :: rest =>
    (match matchSeverity rest with
     | some (w, rest2) =>
       match rest2 with
       | '*' :: '*' :: rest3 => w :: scanBoldSeverity fuel rest3
       | _ => scanBoldSeverity fuel ('*' :: rest)
     | none => scanBoldSeverity fuel ('*' :: rest))
  | fuel + 1, _ :: cs => scanBoldSeverity fuel cs

/-- The lazy group `(.*?)(?=\n#+|\Z)` with `re.DOTALL`: everything up to the
first `"\n#"` (left there for the next attempt) or to the end of input. -/
def takeDesc : List Char → List Char × List Char
  | [] => ([], [])
  | '\n' :: '#' :: rest => ([], '\n' :: '#' :: rest)
  | c :: rest =>
    let p := takeDesc rest
    (c :: p.1, p.2)

/-- One attempt of `#+\s*(Critical|High|Medium|Low)[:\s]*(.*?)(?=\n#+|\Z)`
at the current position (the part of the heading pattern after `(?:^|\n)`);
all three starred pieces are greedy-deterministic here because no later
piece can start with a character the earlier one consumes. -/
def hashTryAt (s : List Char) : Option ((List Char × List Char) × List Char) :=
  match s with
  | '#' :: rest =>
    let rest1 := rest.dropWhile (fun c => c = '#')
    let rest2 := rest1.dropWhile isSpc
    match matchSeverity rest2 with
    | some (w, rest3) =>
      let rest4 := rest3.dropWhile (fun c => c = ':' || isSpc c)
      let d := takeDesc rest4
      some ((w, d.1), d.2)
    | none => none
  | _ => none

/-- `re.findall` of the heading pattern: a match may start with `^` (only at
position 0: `re.MULTILINE` is not set) or by consuming a newline. -/
def scanHeading : ℕ → Bool → List Char → List (List Char × List Char)
  | 0, _, _ => []
  | _, _, [] => []
  | fuel + 1, atStart, c :: cs =>
    if atStart then
      match hashTryAt (c :: cs) with
      | some (res, rest) => res :: scanHeading fuel false rest
      | none =>
        if c = '\n' then
          match hashTryAt cs with
          | some (res, rest) => res :: scanHeading fuel false rest
          | none => scanHeading fuel false cs
        else scanHeading fuel false cs
    else
      if c = '\n' then
        match hashTryAt cs with
        | some (res, rest) => res :: scanHeading fuel false rest
        | none => scanHeading fuel false cs
      else scanHeading fuel false cs

/-- `re.search(r'confidence[:\s]*(\d+)%?', text, re.I)`: value of the first
match's digit group. -/
def scanConfidence : ℕ → List Char → Option ℕ
  | 0, _ => none
  | _, [] => none
  | fuel + 1, c :: cs =>
    match matchCI "confidence".data (c :: cs) with
    | some rest =>
      let rest2 := rest.dropWhile (fun c => c = ':' || isSpc c)
      let ds := rest2.takeWhile Char.isDigit
      if ds.isEmpty then scanConfidence fuel cs
      else some (digitsToNat ds)
    | none => scanConfidence fuel cs

/-- The ordered `vuln_keywords` table of `_guess_vuln_type`. -/
def vulnKeywords : List (String × List String) :=
  [("reentrancy", ["reentrancy", "reentrant", "re-entrancy"]),
   ("flash loan", ["flash loan", "flashloan", "flash-loan"]),
   ("oracle manipulation", ["oracle", "price manipulation"]),
   ("access control", ["access control", "unauthorized", "permission"]),
   ("integer overflow", ["overflow", "underflow", "integer"]),
   ("inflation attack", ["inflation", "first depositor", "donation"]),
   ("front-running", ["front-run", "frontrun", "mev", "sandwich"]),
   ("logic error", ["logic", "edge case", "off-by-one"])]

/-- Whether `pat` matches at the head of the input (exactly). -/
def isLeading : List Char → List Char → Bool
  | [], _ => true
  | _ :: _, [] => false
  | p :: ps, c :: cs => p = c && isLeading ps cs

/-- Python substring containment `pat in s`. -/
def occursIn (pat : List Char) : List Char → Bool
  | [] => pat.isEmpty
  | c :: cs => isLeading pat (c :: cs) || occursIn pat cs

/-- `ResultsExtractor._guess_vuln_type`: first keyword class with a hit in
the lowered text, else "unknown". -/
def guessVulnType (text : List Char) : String :=
  let lowered := text.map lowChar
  match vulnKeywords.find? (fun kv => kv.2.any (fun kw => occursIn kw.data lowered)) with
  | some kv => kv.1
  | none => "unknown"

/-- The `Finding(...)` built for one severity match in `_extract_from_text`:
capitalized severity, heuristic vuln type over `desc or text`, default
confidence 70, truncated description or the placeholder. -/
def mkFinding (text sev desc : List Char) : Finding :=
  { contract_name := "Unknown", contract_address := "", chain := "",
    vuln_type := guessVulnType (if desc.isEmpty then text else desc),
    severity := String.mk (capitalizeChars sev),
    confidence := 70,
    description := if desc.isEmpty then "See PR for details" else String.mk (desc.take 500) }

/-- The findings accumulated over the three severity patterns, in loop order
(heading pattern, then the `Severity:` label, then the bold pattern). -/
def baseFindings (cs : List Char) : List Finding :=
  ((scanHeading (cs.length + 1) true cs).map (fun m => mkFinding cs m.1 m.2))
    ++ ((scanSeverityLabeled (cs.length + 1) cs).map (fun w => mkFinding cs w []))
    ++ ((scanBoldSeverity (cs.length + 1) cs).map (fun w => mkFinding cs w []))

/-- `findings[-1].confidence = int(conf_match.group(1))`. -/
def setLastConfidence : List Finding → ℤ → List Finding
  | [], _ => []
  | [f], c => [{ f with confidence := c }]
  | f :: g :: fs, c => f :: setLastConfidence (g :: fs) c

/-- `ResultsExtractor._extract_from_text`: pattern findings, then — if the
text contains a confidence marker anywhere and at least one finding exists —
the first marker's value overrides the confidence of the last finding. -/
def extract_from_text (text : String) : List Finding :=
  match scanConfidence (text.data.length + 1) text.data with
  | some n =>
    if (baseFindings text.data).isEmpty then baseFindings text.data
    else setLastConfidence (baseFindings text.data) (n : ℤ)
  | none => baseFindings text.data

/-- C6: `should_notify` is true exactly when confidence reaches the configured
minimum, the severity is at-or-above the configured minimum under the fixed
ordering Critical > High > Medium > Low, and the finding is not a duplicate;
with min_severity "Medium" a "Low" finding is never notifiable and a
"Critical" finding is notifiable whenever confidence and dedup permit. -/
theorem should_notify_iff_thresholds (md5hex : String → String)
    (cfg : NotificationConfig) (sent : SentLedger) (now : ℚ) (f : Finding) :
    (should_notify md5hex cfg sent now f = true ↔
      (cfg.min_confidence ≤ f.confidence
        ∧ severity_meets_threshold cfg f.severity = true
        ∧ is_duplicate md5hex cfg sent now f = false))
    ∧ (cfg.min_severity = "Medium" → f.severity = "Low" →
        should_notify md5hex cfg sent now f = false)
    ∧ (cfg.min_severity = "Medium" → f.severity = "Critical" →
        cfg.min_confidence ≤ f.confidence →
        is_duplicate md5hex cfg sent now f = false →
        should_notify md5hex cfg sent now f = true) := by
  refine ⟨?_, ?_, ?_⟩
  · constructor
    · intro h
      unfold should_notify at h
      split_ifs at h with h1 h2 h3
      refine ⟨not_lt.mp h1, ?_, ?_⟩
      · cases hs : severity_meets_threshold cfg f.severity
        · rw [hs] at h2; simp at h2
        · rfl
      · cases hd : is_duplicate md5hex cfg sent now f
        · rfl
        · exact absurd hd h3
    · rintro ⟨hc, hs, hd⟩
      unfold should_notify
      rw [if_neg (not_lt.mpr hc), hs, hd]
      simp
  · intro hmed hlow
    have hs : severity_meets_threshold cfg f.severity = false := by
      rw [hlow]
      show (match severityIdx "Low", severityIdx cfg.min_severity with
        | some fi, some ti => decide (fi ≤ ti)
        | _, _ => false) = false
      rw [hmed]
      decide
    unfold should_notify
    rw [hs]
    simp
  · intro hmed hcrit hconf hdup
    have hs : severity_meets_threshold cfg f.severity = true := by
      rw [hcrit]
      show (match severityIdx "Critical", severityIdx cfg.min_severity with
        | some fi, some ti => decide (fi ≤ ti)
        | _, _ => false) = true
      rw [hmed]
      decide
    unfold should_notify
    rw [if_neg (not_lt.mpr hconf), hs, hdup]
    simp

/-- Witness for the C6 theorem at a concrete configuration and findings. -/
theorem should_notify_iff_thresholds_witness :
    (should_notify (fun s => s) {} [] 0
      { contract_name := "V", contract_address := "0xA", chain := "ethereum",
        vuln_type := "reentrancy", severity := "Low", confidence := 90,
        description := "d" } = false)
    ∧ (should_notify (fun s => s) {} [] 0
      { contract_name := "V", contract_address := "0xA", chain := "ethereum",
        vuln_type := "reentrancy", severity := "Critical", confidence := 90,
        description := "d" } = true) :=
  ⟨(should_notify_iff_thresholds (fun s => s) {} [] 0 _).2.1 rfl rfl,
   (should_notify_iff_thresholds (fun s => s) {} [] 0 _).2.2 rfl rfl (by decide) rfl⟩

/-- C10: a severity string outside the fixed case-sensitive order (for
example "critical", "CRITICAL" or "Info") silently fails the severity gate,
so `should_notify` is false regardless of confidence, config or dedup state,
and no error is raised (the embedding is total). -/
theorem should_notify_unknown_severity (md5hex : String → String)
    (cfg : NotificationConfig) (sent : SentLedger) (now : ℚ) (f : Finding)
    (h : f.severity ∉ SEVERITY_ORDER) :
    severity_meets_threshold cfg f.severity = false
      ∧ should_notify md5hex cfg sent now f = false := by
  have hidx : severityIdx f.severity = none := by
    simp only [SEVERITY_ORDER, List.mem_cons, List.not_mem_nil, or_false, not_or] at h
    obtain ⟨h1, h2, h3, h4⟩ := h
    simp [severityIdx, SEVERITY_ORDER, List.findIdx?_cons, List.findIdx?_nil,
      Ne.symm h1, Ne.symm h2, Ne.symm h3, Ne.symm h4]
  have hs : severity_meets_threshold cfg f.severity = false := by
    unfold severity_meets_threshold
    rw [hidx]
  refine ⟨hs, ?_⟩
  unfold should_notify
  rw [hs]
  simp

/-- Witness for the C10 theorem: lowercase, uppercase and "Info" severities
are silently non-notifiable even at confidence 100. -/
theorem should_notify_unknown_severity_witness :
    (should_notify (fun s => s) {} [] 0
      { contract_name := "V", contract_address := "0xA", chain := "ethereum",
        vuln_type := "reentrancy", severity := "critical", confidence := 100,
        description := "d" } = false)
    ∧ (should_notify (fun s => s) {} [] 0
      { contract_name := "V", contract_address := "0xA", chain := "ethereum",
        vuln_type := "reentrancy", severity := "CRITICAL", confidence := 100,
        description := "d" } = false)
    ∧ (should_notify (fun s => s) {} [] 0
      { contract_name := "V", contract_address := "0xA", chain := "ethereum",
        vuln_type := "reentrancy", severity := "Info", confidence := 100,
        description := "d" } = false) :=
  ⟨(should_notify_unknown_severity (fun s => s) {} [] 0 _ (by decide)).2,
   (should_notify_unknown_severity (fun s => s) {} [] 0 _ (by decide)).2,
   (should_notify_unknown_severity (fun s => s) {} [] 0 _ (by decide)).2⟩

/-- C5: the dedup identity of a finding is a function of
`(contract_address, vuln_type, severity)` only, so two findings agreeing on
that triple share a hash however their descriptions differ; after the first
is marked sent at `T`, `should_notify` rejects the second at every instant
before `T + dedupe_hours` (hours being 3600 seconds), and accepts it again at
any later instant provided confidence and severity pass. -/
theorem dedup_window (md5hex : String → String) (cfg : NotificationConfig)
    (sent : SentLedger) (f g : Finding) (T now : ℚ)
    (haddr : g.contract_address = f.contract_address)
    (hvuln : g.vuln_type = f.vuln_type)
    (hsev : g.severity = f.severity)
    (hdesc : g.description ≠ f.description) :
    (finding_hash md5hex g = finding_hash md5hex f)
    ∧ (now < T + 3600 * (cfg.dedupe_hours : ℚ) →
        should_notify md5hex cfg (mark_sent md5hex sent f T) now g = false)
    ∧ (T + 3600 * (cfg.dedupe_hours : ℚ) < now →
        cfg.min_confidence ≤ g.confidence →
        severity_meets_threshold cfg g.severity = true →
        should_notify md5hex cfg (mark_sent md5hex sent f T) now g = true) := by
  have hkey : finding_key g = finding_key f := by
    unfold finding_key
    rw [haddr, hvuln, hsev]
  have hhash : finding_hash md5hex g = finding_hash md5hex f := by
    unfold finding_hash
    rw [hkey]
  have hget : dGet (mark_sent md5hex sent f T) (finding_hash md5hex g) = some T := by
    rw [hhash]
    exact dGet_dSet_self sent (finding_hash md5hex f) T
  refine ⟨hhash, ?_, ?_⟩
  · intro hnow
    have hdup : is_duplicate md5hex cfg (mark_sent md5hex sent f T) now g = true := by
      unfold is_duplicate
      rw [hget]
      simp only [decide_eq_true_eq]
      rw [div_lt_iff₀ (by norm_num : (0:ℚ) < 3600)]
      linarith
    unfold should_notify
    rw [hdup]
    simp
  · intro hnow hconf hsevok
    have hdup : is_duplicate md5hex cfg (mark_sent md5hex sent f T) now g = false := by
      unfold is_duplicate
      rw [hget]
      simp only [decide_eq_false_iff_not]
      rw [not_lt, le_div_iff₀ (by norm_num : (0:ℚ) < 3600)]
      linarith
    unfold should_notify
    rw [if_neg (not_lt.mpr hconf), hsevok, hdup]
    simp

/-- The first finding of the C5 witness scenario. -/
def c5FindingA : Finding :=
  { contract_name := "V", contract_address := "0xA", chain := "ethereum",
    vuln_type := "reentrancy", severity := "High", confidence := 90,
    description := "first text" }

/-- The duplicate of the C5 witness scenario: same triple, other text. -/
def c5FindingB : Finding :=
  { contract_name := "V", contract_address := "0xA", chain := "ethereum",
    vuln_type := "reentrancy", severity := "High", confidence := 90,
    description := "second text" }

/-- Witness for the C5 theorem: same triple, different descriptions; the
duplicate is suppressed one second after sending and eligible again after
the 24-hour window. -/
theorem dedup_window_witness :
    (should_notify (fun s => s) {}
      (mark_sent (fun s => s) [] c5FindingA 0) 1 c5FindingB = false)
    ∧ (should_notify (fun s => s) {}
      (mark_sent (fun s => s) [] c5FindingA 0) 100000 c5FindingB = true) :=
  ⟨(dedup_window (fun s => s) {} [] c5FindingA c5FindingB 0 1 rfl rfl rfl
      (by decide)).2.1 (by norm_num),
   (dedup_window (fun s => s) {} [] c5FindingA c5FindingB 0 100000 rfl rfl rfl
      (by decide)).2.2 (by norm_num) (by decide) (by decide)⟩

/-- C7 counterexample: in `"confidence: 30%\nSeverity: High"` the confidence
marker precedes the only severity candidate — nothing "immediately follows"
it — yet the extractor assigns that candidate confidence 30, not the default
70 the claim requires: the code applies the first marker found anywhere in
the text to the last finding parsed. -/
theorem extract_confidence_counterexample :
    (extract_from_text "confidence: 30%\nSeverity: High").map (fun f => f.confidence) = [30]
      ∧ (30 : ℤ) ≠ 70 := by
  constructor
  · decide
  · decide

theorem setLastConfidence_dropLast :
    ∀ (fs : List Finding) (c : ℤ), (setLastConfidence fs c).dropLast = fs.dropLast
  | [], _ => rfl
  | [_], _ => rfl
  | f :: g :: fs, c => by
    have ih := setLastConfidence_dropLast (g :: fs) c
    show (f :: setLastConfidence (g :: fs) c).dropLast = (f :: g :: fs).dropLast
    cases hgf : setLastConfidence (g :: fs) c with
    | nil =>
      cases fs with
      | nil => simp [setLastConfidence] at hgf
      | cons a b => simp [setLastConfidence] at hgf
    | cons x xs =>
      rw [hgf] at ih
      rw [List.dropLast_cons₂, List.dropLast_cons₂, ih]

theorem setLastConfidence_getLast? :
    ∀ (fs : List Finding) (c : ℤ),
      (setLastConfidence fs c).getLast? =
        fs.getLast?.map (fun f => { f with confidence := c })
  | [], _ => rfl
  | [_], _ => rfl
  | f :: g :: fs, c => by
    have ih := setLastConfidence_getLast? (g :: fs) c
    show (f :: setLastConfidence (g :: fs) c).getLast? = _
    cases hgf : setLastConfidence (g :: fs) c with
    | nil =>
      cases fs with
      | nil => simp [setLastConfidence] at hgf
      | cons a b => simp [setLastConfidence] at hgf
    | cons x xs =>
      rw [hgf] at ih
      rw [List.getLast?_cons_cons, ih, List.getLast?_cons_cons]

theorem baseFindings_confidence (cs : List Char) :
    ∀ f ∈ baseFindings cs, f.confidence = 70 := by
  intro f hf
  unfold baseFindings at hf
  rcases List.mem_append.mp hf with hf' | hf2
  · rcases List.mem_append.mp hf' with hf1 | hf1
    · rcases List.mem_map.mp hf1 with ⟨m, _, hm⟩
      rw [← hm]; rfl
    · rcases List.mem_map.mp hf1 with ⟨m, _, hm⟩
      rw [← hm]; rfl
  · rcases List.mem_map.mp hf2 with ⟨m, _, hm⟩
    rw [← hm]; rfl

/-- C7 amended: every finding except the last in extraction order keeps the
default confidence 70; when the text has no confidence marker all findings
keep 70; and when the text's first marker (searched anywhere, not just after
a candidate) carries value `n`, the last finding's confidence is `n`. -/
theorem extract_confidence_amended (text : String) :
    (∀ f ∈ (extract_from_text text).dropLast, f.confidence = 70)
    ∧ (scanConfidence (text.data.length + 1) text.data = none →
        ∀ f ∈ extract_from_text text, f.confidence = 70)
    ∧ (∀ n : ℕ, scanConfidence (text.data.length + 1) text.data = some n →
        ∀ f, (extract_from_text text).getLast? = some f → f.confidence = (n : ℤ)) := by
  refine ⟨?_, ?_, ?_⟩
  · intro f hf
    unfold extract_from_text at hf
    cases hc : scanConfidence (text.data.length + 1) text.data with
    | none =>
      rw [hc] at hf
      dsimp only [] at hf
      exact baseFindings_confidence text.data f (List.dropLast_subset _ hf)
    | some n =>
      rw [hc] at hf
      dsimp only [] at hf
      by_cases hemp : (baseFindings text.data).isEmpty
      · rw [if_pos hemp] at hf
        exact baseFindings_confidence text.data f (List.dropLast_subset _ hf)
      · rw [if_neg hemp, setLastConfidence_dropLast] at hf
        exact baseFindings_confidence text.data f (List.dropLast_subset _ hf)
  · intro hc f hf
    unfold extract_from_text at hf
    rw [hc] at hf
    dsimp only [] at hf
    exact baseFindings_confidence text.data f hf
  · intro n hc f hf
    unfold extract_from_text at hf
    rw [hc] at hf
    dsimp only [] at hf
    by_cases hemp : (baseFindings text.data).isEmpty
    · rw [if_pos hemp] at hf
      rw [List.isEmpty_iff] at hemp
      rw [hemp] at hf
      exact Option.noConfusion hf
    · rw [if_neg hemp, setLastConfidence_getLast?] at hf
      cases hlast : (baseFindings text.data).getLast? with
      | none =>
        rw [hlast] at hf
        exact Option.noConfusion hf
      | some g =>
        rw [hlast] at hf
        have hf' : ({ g with confidence := (n : ℤ) } : Finding) = f := Option.some.inj hf
        rw [← hf']

/-- Witness for the amended C7 theorem: a marker-free text keeps the default
confidence on every extracted finding. -/
theorem extract_confidence_amended_witness :
    ∀ f ∈ extract_from_text "Severity: High", f.confidence = 70 :=
  (extract_confidence_amended "Severity: High").2.1 (by decide)

/-- C8: both fetchers are total functions of the reified fetch outcome — no
path raises.  On error (or a bounty page without the embedded data blob) they
return the cached payload; with no cache on disk they return the empty list;
on success they return and cache the fresh payload, so a later failure
returns exactly the last successfully fetched one. -/
theorem fetchers_fail_soft (α : Type) (cache : Option (List α)) (b p : List α) :
    ((fetch_programs FetchOutcome.error cache).1 = cache.getD [])
    ∧ ((fetch_programs FetchOutcome.successNoData cache).1 = cache.getD [])
    ∧ ((fetch_programs FetchOutcome.error (none : Option (List α))).1 = [])
    ∧ (fetch_programs (FetchOutcome.success b) cache = (b, some b))
    ∧ ((fetch_protocols (Except.error ()) cache).1 = cache.getD [])
    ∧ ((fetch_protocols (Except.error ()) (none : Option (List α))).1 = [])
    ∧ (fetch_protocols (Except.ok p) cache = (p, some p))
    ∧ ((fetch_programs FetchOutcome.error
          (fetch_programs (FetchOutcome.success b) cache).2).1 = b)
    ∧ ((fetch_protocols (Except.error ())
          (fetch_protocols (Except.ok p) cache).2).1 = p) :=
  ⟨rfl, rfl, rfl, rfl, rfl, rfl, rfl, rfl, rfl⟩

/-- C9: `add_manual_target` overwrites the whole record at the identity key:
whatever TVL, category, url or scan timestamp the old record carried, the
stored record afterwards is the fresh manual one with tvl 0, category and
source "manual", no url, no last_scanned, and a score recomputed at tvl 0. -/
theorem add_manual_target_overwrites (M : ScoreModel) (pool : Pool)
    (address chain name : String) (program : Option String) (max_bounty : ℤ)
    (hpresent : dContains pool (targetKey chain address) = true) :
    dGet (add_manual_target M pool address chain name program max_bounty)
        (targetKey chain address) =
      some { address := address, chain := chain, name := name, program := program,
             max_bounty := max_bounty, tvl := 0,
             priority_score := calculate_priority M max_bounty 0 (optStrTruthy program) chain,
             source := "manual", category := "manual", url := none,
             last_scanned := none } :=
  dGet_dSet_self pool (targetKey chain address) _

/-- A concrete score model for witnesses (identity log and rounding). -/
def idScoreModel : ScoreModel := { log10 := fun q => q, round2 := fun q => q }

/-- The pre-existing enriched record of the C9 witness scenario. -/
def c9OldTarget : ScanTarget :=
  { address := "0xAbC", chain := "ethereum", name := "Old", program := some "P",
    max_bounty := 50000, tvl := 123456, priority_score := 42,
    source := "defillama", category := "dex", url := some "https://x",
    last_scanned := some 5 }

/-- Witness for the C9 theorem on a pool already holding an enriched record
at the key. -/
theorem add_manual_target_overwrites_witness :
    dGet (add_manual_target idScoreModel [(targetKey "ethereum" "0xAbC", c9OldTarget)]
        "0xAbC" "ethereum" "New" none 0) (targetKey "ethereum" "0xAbC") =
      some { address := "0xAbC", chain := "ethereum", name := "New", program := none,
             max_bounty := 0, tvl := 0,
             priority_score := calculate_priority idScoreModel 0 0 (optStrTruthy none) "ethereum",
             source := "manual", category := "manual", url := none,
             last_scanned := none } :=
  add_manual_target_overwrites idScoreModel [(targetKey "ethereum" "0xAbC", c9OldTarget)]
    "0xAbC" "ethereum" "New" none 0 (by decide)

theorem sortByPriority_sorted (l : List ScanTarget) :
    (sortByPriority l).Pairwise (fun a b => b.priority_score ≤ a.priority_score) := by
  have hs := @List.sorted_mergeSort ScanTarget
    (fun a b : ScanTarget => decide (b.priority_score ≤ a.priority_score))
    (fun a b c hab hbc => by
      simp only [decide_eq_true_eq] at hab hbc ⊢
      exact le_trans hbc hab)
    (fun a b => by
      simp only [Bool.or_eq_true, decide_eq_true_eq]
      exact le_total b.priority_score a.priority_score)
    l
  exact hs.imp (fun h => of_decide_eq_true h)

/-- C4: a target scanned at `T` is excluded from `get_unscanned` queried at
`T + days - ε` and eligible again at `T + days + ε` (appearing whenever the
limit permits, e.g. when the limit covers the pool); the result holds at most
`limit` entries in descending `priority_score` order, and `mark_scanned`
stamps exactly the queried history entry.  Determinism is inherent: the
embedding is a pure function of pool, history and clock. -/
theorem get_unscanned_recency (pool : Pool) (scanned : ScanHistory) (k : String)
    (t : ScanTarget) (sid : Option String) (T ε : ℚ) (limit : ℕ) (days : ℤ)
    (hkeyed : ∀ e ∈ pool, e.1 = targetKey e.2.chain e.2.address)
    (hmem : (k, t) ∈ pool)
    (hscan : dGet scanned k = some ⟨T, sid⟩)
    (hε : 0 < ε) :
    (t ∉ get_unscanned pool scanned (T + (days : ℚ) - ε) limit days)
    ∧ (pool.length ≤ limit →
        t ∈ get_unscanned pool scanned (T + (days : ℚ) + ε) limit days)
    ∧ (∀ now : ℚ, (get_unscanned pool scanned now limit days).length ≤ limit)
    ∧ (∀ now : ℚ, (get_unscanned pool scanned now limit days).Pairwise
        (fun a b => b.priority_score ≤ a.priority_score))
    ∧ (∀ (p : Pool) (s : ScanHistory) (address chain : String)
        (sid' : Option String) (now : ℚ),
        dGet (mark_scanned p s address chain sid' now).2 (targetKey chain address) =
          some ⟨now, sid'⟩) := by
  have hk : k = targetKey t.chain t.address := hkeyed (k, t) hmem
  refine ⟨?_, ?_, ?_, ?_, ?_⟩
  · intro hin
    unfold get_unscanned at hin
    have hsorted := List.mem_of_mem_take hin
    have hL := (List.mem_mergeSort).mp hsorted
    rcases List.mem_map.mp hL with ⟨e, hef, he2⟩
    rcases List.mem_filter.mp hef with ⟨hep, helig⟩
    have he1 : e.1 = k := by
      rw [hkeyed e hep, he2, hk]
    unfold eligibleEntry at helig
    rw [he1, hscan] at helig
    have : T ≤ T + (days : ℚ) - ε - (days : ℚ) := of_decide_eq_true helig
    linarith
  · intro hlim
    have helig : eligibleEntry scanned (T + (days : ℚ) + ε - (days : ℚ)) (k, t) = true := by
      unfold eligibleEntry
      rw [show ((k, t) : String × ScanTarget).1 = k from rfl, hscan]
      exact decide_eq_true (by linarith)
    have htL : t ∈ (pool.filter
        (eligibleEntry scanned (T + (days : ℚ) + ε - (days : ℚ)))).map (fun e => e.2) :=
      List.mem_map.mpr ⟨(k, t), List.mem_filter.mpr ⟨hmem, helig⟩, rfl⟩
    have htS : t ∈ sortByPriority ((pool.filter
        (eligibleEntry scanned (T + (days : ℚ) + ε - (days : ℚ)))).map (fun e => e.2)) :=
      (List.mem_mergeSort).mpr htL
    unfold get_unscanned
    rw [List.take_of_length_le]
    · exact htS
    · have h1 : ((pool.filter
          (eligibleEntry scanned (T + (days : ℚ) + ε - (days : ℚ)))).map
            (fun e => e.2)).length ≤ pool.length := by
        rw [List.length_map]
        exact List.length_filter_le _ _
      have h2 := (List.mergeSort_perm ((pool.filter
          (eligibleEntry scanned (T + (days : ℚ) + ε - (days : ℚ)))).map (fun e => e.2))
        (fun a b => decide (b.priority_score ≤ a.priority_score))).length_eq
      unfold sortByPriority
      rw [h2]
      exact le_trans h1 hlim
  · intro now
    unfold get_unscanned
    exact List.length_take_le limit _
  · intro now
    unfold get_unscanned
    exact (sortByPriority_sorted _).sublist (List.take_sublist _ _)
  · intro p s address chain sid' now
    exact dGet_dSet_self s (targetKey chain address) ⟨now, sid'⟩

/-- The pool entry of the C4 witness scenario. -/
def c4Target : ScanTarget :=
  { address := "0xAA", chain := "ethereum", name := "T", program := some "P",
    max_bounty := 100000, tvl := 0, priority_score := 50,
    source := "immunefi", category := "defi", url := none, last_scanned := none }

/-- Witness for the C4 theorem: a one-target pool scanned at time 0,
queried with a seven-day window and ε = 1 day. -/
theorem get_unscanned_recency_witness :
    (c4Target ∉ get_unscanned [(targetKey "ethereum" "0xAA", c4Target)]
      [(targetKey "ethereum" "0xAA", ⟨0, none⟩)] (0 + ((7 : ℤ) : ℚ) - 1) 5 7)
    ∧ (([(targetKey "ethereum" "0xAA", c4Target)] : Pool).length ≤ 5 →
        c4Target ∈ get_unscanned [(targetKey "ethereum" "0xAA", c4Target)]
          [(targetKey "ethereum" "0xAA", ⟨0, none⟩)] (0 + ((7 : ℤ) : ℚ) + 1) 5 7) := by
  have h := get_unscanned_recency [(targetKey "ethereum" "0xAA", c4Target)]
    [(targetKey "ethereum" "0xAA", ⟨0, none⟩)] (targetKey "ethereum" "0xAA")
    c4Target none 0 1 5 7 (by decide) (by decide) (by decide) (by decide)
  exact ⟨h.1, h.2.1⟩

theorem filter_key_eq_nil {α : Type} (m : List (String × α)) (k : String)
    (h : k ∉ dKeys m) : m.filter (fun e => e.1 = k) = [] := by
  induction m with
  | nil => rfl
  | cons e m ih =>
    have hne : ¬e.1 = k := by
      intro hh
      exact h (by rw [← hh]; exact List.mem_cons_self _ _)
    have hk : k ∉ dKeys m := by
      intro hh
      exact h (List.mem_cons_of_mem _ hh)
    simp [List.filter_cons, hne, ih hk]

theorem filter_key_length_one {α : Type} (m : List (String × α)) (k : String)
    (hnd : (dKeys m).Nodup) (hc : dContains m k = true) :
    (m.filter (fun e => e.1 = k)).length = 1 := by
  induction m with
  | nil => simp [dContains] at hc
  | cons e m ih =>
    rw [show dKeys (e :: m) = e.1 :: dKeys m from rfl, List.nodup_cons] at hnd
    by_cases he : e.1 = k
    · have hk : k ∉ dKeys m := by rw [← he]; exact hnd.1
      simp [List.filter_cons, he, filter_key_eq_nil m k hk]
    · have hc' : dContains m k = true := by
        simp [dContains, he] at hc
        exact hc
      simp [List.filter_cons, he, ih hnd.2 hc']

/-- `dUpdate` never changes the number of entries. -/
theorem dUpdate_length {α : Type} (m : List (String × α)) (k : String) (f : α → α) :
    (dUpdate m k f).length = m.length := by
  have h := congrArg List.length (dKeys_update m k f)
  simpa [dKeys] using h

/-- C2: starting from a pool with unique identity keys, both refreshes keep
the keys unique; every non-skipped input record ends up represented by
exactly one pool entry at its key; and merging a single record whose key is
already present never grows the pool. -/
theorem refresh_identity_invariant (M : ScoreModel) (min_tvl : ℚ) (pool : Pool)
    (rsI : List BountyTarget) (rsD : List ProtocolTarget)
    (hnd : (dKeys pool).Nodup) :
    ((dKeys (refresh_immunefi M pool rsI).1).Nodup)
    ∧ ((dKeys (refresh_defillama M min_tvl pool rsD).1).Nodup)
    ∧ (∀ r ∈ rsI, ∀ k, immunefiKey r = some k →
        ((refresh_immunefi M pool rsI).1.filter (fun e => e.1 = k)).length = 1)
    ∧ (∀ r ∈ rsD, ∀ k, defillamaKey min_tvl r = some k →
        ((refresh_defillama M min_tvl pool rsD).1.filter (fun e => e.1 = k)).length = 1)
    ∧ (∀ (p : Pool) (r : BountyTarget) (k : String), immunefiKey r = some k →
        dContains p k = true → (refresh_immunefi M p [r]).1.length = p.length) := by
  have hndI : (dKeys (refresh_immunefi M pool rsI).1).Nodup :=
    dKeys_nodup_mergeRecords immunefiKey immunefiUpd (immunefiIns M) rsI pool hnd
  have hndD : (dKeys (refresh_defillama M min_tvl pool rsD).1).Nodup :=
    dKeys_nodup_mergeRecords (defillamaKey min_tvl) (defillamaUpd M) (defillamaIns M)
      rsD pool hnd
  refine ⟨hndI, hndD, ?_, ?_, ?_⟩
  · intro r hr k hk
    exact filter_key_length_one _ k hndI
      (dContains_mergeRecords_of_mem immunefiKey immunefiUpd (immunefiIns M)
        (immunefiUpd_ins M) rsI pool r k hr hk)
  · intro r hr k hk
    exact filter_key_length_one _ k hndD
      (dContains_mergeRecords_of_mem (defillamaKey min_tvl) (defillamaUpd M)
        (defillamaIns M) (defillamaUpd_ins M) rsD pool r k hr hk)
  · intro p r k hk hc
    show (List.foldl (mergeStep immunefiKey immunefiUpd (immunefiIns M))
      (p, 0) [r]).1.length = p.length
    rw [List.foldl_cons, List.foldl_nil, mergeStep_update (p, 0) hk hc]
    exact dUpdate_length p k (immunefiUpd r)

/-- The bounty record of the C2/C3 witness scenarios. -/
def wBounty : BountyTarget :=
  { program := "Foo", address := "0xAA", chain := "ethereum", name := "FooProt",
    max_bounty := 100000, category := "defi", url := "https://immunefi.com/bug-bounty/foo/" }

/-- The TVL record of the C2/C3 witness scenarios (same identity key). -/
def wProtocol : ProtocolTarget :=
  { name := "FooProt", slug := "fooprot", tvl := 50000000, chain := "ethereum",
    category := "dex", address := some "0xAA", url := "https://foo",
    github := some "foo" }

/-- Witness for the C2 theorem, run from the empty pool over one record per
feed plus a duplicate-key bounty record. -/
theorem refresh_identity_invariant_witness :
    ((dKeys (refresh_immunefi idScoreModel [] [wBounty, wBounty]).1).Nodup)
    ∧ ((dKeys (refresh_defillama idScoreModel 10000000 [] [wProtocol]).1).Nodup) := by
  have h := refresh_identity_invariant idScoreModel 10000000 []
    [wBounty, wBounty] [wProtocol] (by decide)
  exact ⟨h.1, h.2.1⟩

/-- C3: replaying either refresh with the identical record list returns the
first pass's pool unchanged (hence the same size and the same stored
priority scores) with an added-count of 0, and the second pass leaves the
identity keys duplicate-free. -/
theorem refresh_idempotent (M : ScoreModel) (min_tvl : ℚ) (pool : Pool)
    (rsI : List BountyTarget) (rsD : List ProtocolTarget)
    (hnd : (dKeys pool).Nodup) :
    (refresh_immunefi M (refresh_immunefi M pool rsI).1 rsI =
      ((refresh_immunefi M pool rsI).1, 0))
    ∧ (refresh_defillama M min_tvl (refresh_defillama M min_tvl pool rsD).1 rsD =
      ((refresh_defillama M min_tvl pool rsD).1, 0))
    ∧ ((dKeys (refresh_immunefi M (refresh_immunefi M pool rsI).1 rsI).1).Nodup)
    ∧ ((dKeys (refresh_defillama M min_tvl
        (refresh_defillama M min_tvl pool rsD).1 rsD).1).Nodup) := by
  have hI : refresh_immunefi M (refresh_immunefi M pool rsI).1 rsI =
      ((refresh_immunefi M pool rsI).1, 0) :=
    mergeRecords_idem immunefiKey immunefiUpd (immunefiIns M) (immunefiUpd_ins M)
      (fun k rs v => foldUpdKey_immunefi_absorb k rs v) pool rsI hnd
  have hD : refresh_defillama M min_tvl (refresh_defillama M min_tvl pool rsD).1 rsD =
      ((refresh_defillama M min_tvl pool rsD).1, 0) :=
    mergeRecords_idem (defillamaKey min_tvl) (defillamaUpd M) (defillamaIns M)
      (defillamaUpd_ins M) (fun k rs v => foldUpdKey_defillama_absorb M min_tvl k rs v)
      pool rsD hnd
  refine ⟨hI, hD, ?_, ?_⟩
  · have h1 : (refresh_immunefi M (refresh_immunefi M pool rsI).1 rsI).1 =
        (refresh_immunefi M pool rsI).1 := by rw [hI]
    rw [h1]
    exact dKeys_nodup_mergeRecords immunefiKey immunefiUpd (immunefiIns M) rsI pool hnd
  · have h1 : (refresh_defillama M min_tvl
        (refresh_defillama M min_tvl pool rsD).1 rsD).1 =
        (refresh_defillama M min_tvl pool rsD).1 := by rw [hD]
    rw [h1]
    exact dKeys_nodup_mergeRecords (defillamaKey min_tvl) (defillamaUpd M)
      (defillamaIns M) rsD pool hnd

/-- Witness for the C3 theorem on concrete record lists (with a repeated
bounty record) over the empty pool. -/
theorem refresh_idempotent_witness :
    (refresh_immunefi idScoreModel
        (refresh_immunefi idScoreModel [] [wBounty, wBounty]).1 [wBounty, wBounty] =
      ((refresh_immunefi idScoreModel [] [wBounty, wBounty]).1, 0))
    ∧ (refresh_defillama idScoreModel 10000000
        (refresh_defillama idScoreModel 10000000 [] [wProtocol]).1 [wProtocol] =
      ((refresh_defillama idScoreModel 10000000 [] [wProtocol]).1, 0)) := by
  have h := refresh_idempotent idScoreModel 10000000 [] [wBounty, wBounty] [wProtocol]
    (by decide)
  exact ⟨h.1, h.2.1⟩

/-- First sighting of the C1 target: bounty 25000. -/
def c1rec1 : BountyTarget :=
  { program := "Foo", address := "0xAbC", chain := "ethereum", name := "FooProt",
    max_bounty := 25000, category := "defi",
    url := "https://immunefi.com/bug-bounty/foo/" }

/-- Second sighting of the same `(chain, address)`: bounty raised to 10M. -/
def c1rec2 : BountyTarget := { c1rec1 with max_bounty := 10000000 }

/-- C1 (failing behavior): when `refresh_immunefi` merges a record into an
already-present target it raises `max_bounty` (here from 25000 to 10000000)
but leaves `priority_score` exactly as computed at insertion time, so the
stored score differs from `_calculate_priority` applied to the target's
current bounty, tvl, has-bounty flag and chain — contradicting the spec's
"scores are never frozen" merge invariant.  The hypotheses are elementary
facts about `log10` (monotone enough to cap at 10001 and stay small at 26)
and two-decimal rounding, all true of the real primitives. -/
theorem refresh_immunefi_merge_keeps_stale_score (M : ScoreModel)
    (hcap : 40 ≤ 10 * M.log10 10001)
    (hsmall : 10 * M.log10 26 ≤ 15)
    (hround : ∀ x : ℚ, |M.round2 x - x| ≤ 1 / 100) :
    ∃ t : ScanTarget,
      dGet (refresh_immunefi M (refresh_immunefi M [] [c1rec1]).1 [c1rec2]).1
          (targetKey "ethereum" "0xAbC") = some t
      ∧ t.max_bounty = 10000000
      ∧ t.priority_score = calculate_priority M 25000 0 true "ethereum"
      ∧ t.priority_score ≠
          calculate_priority M t.max_bounty t.tvl (optStrTruthy t.program) t.chain := by
  have hpool : (refresh_immunefi M (refresh_immunefi M [] [c1rec1]).1 [c1rec2]).1 =
      [(targetKey "ethereum" "0xAbC", immunefiUpd c1rec2 (immunefiIns M c1rec1))] := rfl
  refine ⟨immunefiUpd c1rec2 (immunefiIns M c1rec1), ?_, ?_, rfl, ?_⟩
  · rw [hpool]
    simp [dGet]
  · show max (25000 : ℤ) 10000000 = 10000000
    exact max_eq_right (by norm_num)
  · have hmb : (immunefiUpd c1rec2 (immunefiIns M c1rec1)).max_bounty = 10000000 := by
      show max (25000 : ℤ) 10000000 = 10000000
      exact max_eq_right (by norm_num)
    rw [hmb]
    have hscore : (immunefiUpd c1rec2 (immunefiIns M c1rec1)).priority_score =
        calculate_priority M 25000 0 true "ethereum" := rfl
    have htvl : (immunefiUpd c1rec2 (immunefiIns M c1rec1)).tvl = 0 := rfl
    have hprog : optStrTruthy (immunefiUpd c1rec2 (immunefiIns M c1rec1)).program = true := rfl
    have hchain : (immunefiUpd c1rec2 (immunefiIns M c1rec1)).chain = "ethereum" := rfl
    rw [hscore, htvl, hprog, hchain]
    have hA : calculate_priority M 25000 0 true "ethereum" =
        M.round2 (min 40 (10 * M.log10 26) + 30) := by
      unfold calculate_priority chainScore
      norm_num
      congr 1
      ring
    have hB : calculate_priority M 10000000 0 true "ethereum" =
        M.round2 (min 40 (10 * M.log10 10001) + 30) := by
      unfold calculate_priority chainScore
      norm_num
      congr 1
      ring
    rw [hA, hB]
    intro heq
    have h1 : min (40 : ℚ) (10 * M.log10 26) ≤ 15 :=
      le_trans (min_le_right _ _) hsmall
    have h2 : min (40 : ℚ) (10 * M.log10 10001) = 40 := min_eq_left hcap
    have hrA := hround (min 40 (10 * M.log10 26) + 30)
    have hrB := hround (min 40 (10 * M.log10 10001) + 30)
    rw [abs_sub_le_iff] at hrA hrB
    linarith [hrA.1, hrB.2]

/-- The concrete score model of the C1 witness: a step function standing in
for `log10` (1 below 100, 4 above) and exact rounding. -/
def c1Model : ScoreModel :=
  { log10 := fun q => if q < 100 then (1 : ℚ) else 4, round2 := fun q => q }

/-- Witness for the C1 theorem at the concrete model. -/
theorem refresh_immunefi_merge_keeps_stale_score_witness :
    ∃ t : ScanTarget,
      dGet (refresh_immunefi c1Model (refresh_immunefi c1Model [] [c1rec1]).1 [c1rec2]).1
          (targetKey "ethereum" "0xAbC") = some t
      ∧ t.max_bounty = 10000000
      ∧ t.priority_score = calculate_priority c1Model 25000 0 true "ethereum"
      ∧ t.priority_score ≠
          calculate_priority c1Model t.max_bounty t.tvl (optStrTruthy t.program) t.chain :=
  refresh_immunefi_merge_keeps_stale_score c1Model
    (by
      show (40 : ℚ) ≤ 10 * (if (10001 : ℚ) < 100 then (1 : ℚ) else 4)
      rw [if_neg (by norm_num : ¬(10001 : ℚ) < 100)]
      norm_num)
    (by
      show (10 : ℚ) * (if (26 : ℚ) < 100 then (1 : ℚ) else 4) ≤ 15
      rw [if_pos (by norm_num : (26 : ℚ) < 100)]
      norm_num)
    (by
      intro x
      show |x - x| ≤ (1 : ℚ) / 100
      simp)
